import Mathlib

/-!
Verification development for the APPO learner (`algorithms/appo/learner.py`).

Each Python function relevant to the claims is shallowly embedded as an
executable Lean definition; machine floats are modelled as rationals,
Python exceptions as `Option`, the filesystem directory of checkpoints as a
list of filenames (lists of characters), and the per-step tensors of a
rollout as lists.  The Lean field `mbatch` models the config option
`macro_batch` (renamed only because of lexical constraints on Lean names).
-/

/-- Configuration options of the learner (`self.cfg`) used by the embedded
functions.  `mbatch` models `cfg.macro_batch`. -/
structure Config where
  mbatch : Nat
  rollout : Nat
  recurrence : Nat
  batch_size : Nat
  max_policy_lag : Int
  keep_checkpoints : Nat
  ppo_epochs : Nat
  target_kl : Rat
deriving Repr

/-- A rollout descriptor as handed to `_process_rollouts`: the slot key
fields and the per-step `policy_version` tags stored in the trajectory
tensors (`r['t']['policy_version']`). -/
structure Rollout where
  worker_idx : Nat
  split_idx : Nat
  env_idx : Nat
  agent_idx : Nat
  traj_buffer_idx : Nat
  policy_version : List Int
deriving DecidableEq, Repr

/-- The slot key of a rollout inside the readiness bitmap. -/
def slotKey (r : Rollout) : Nat × Nat × Nat × Nat × Nat :=
  (r.worker_idx, r.split_idx, r.env_idx, r.agent_idx, r.traj_buffer_idx)

/-- The in-process learner state touched by rollout intake: the current
`train_step`, the discard counter and the readiness bitmap
(`self.traj_buffer_ready`, flattened over the five key components). -/
structure IntakeState where
  train_step : Int
  num_discarded_rollouts : Nat
  ready : Nat × Nat × Nat × Nat × Nat → Bool

/-- `r['t']['policy_version'].min().item()`: the minimum policy version tag
of a rollout (`0` for an empty tag list, which never occurs). -/
def rolloutMinVersion (r : Rollout) : Int :=
  (r.policy_version.min?).getD 0

/-- `_mark_rollout_buffer_free`: set the readiness bit of the rollout's slot
to 1. -/
def markRolloutBufferFree (st : IntakeState) (r : Rollout) : IntakeState :=
  { st with ready := fun k => if k = slotKey r then true else st.ready k }

/-- The discard loop of `_process_rollouts`: walk the pending list from the
head counting rollouts whose minimum policy version lags `policy_version`
by at least `max_policy_lag`, stopping at the first non-stale rollout. -/
def discardStaleCount (cfg : Config) (policyVersion : Int) : List Rollout → Nat
  | [] => 0
  | r :: rs =>
    if policyVersion - rolloutMinVersion r ≥ cfg.max_policy_lag then
      discardStaleCount cfg policyVersion rs + 1
    else 0

/-- `_process_rollouts`: if fewer than `macro_batch // rollout` descriptors
are pending, return everything unchanged; otherwise discard the stale head
(releasing each discarded slot and bumping the discard counter), then, if
enough rollouts remain, split off the oldest `macro_batch // rollout` of
them as the macro-batch (whose slots `_prepare_train_buffer` also
releases).  Returns (state, remaining pending list, macro-batch if formed,
work_done). -/
def processRollouts (cfg : Config) (st : IntakeState) (rollouts : List Rollout) :
    IntakeState × List Rollout × Option (List Rollout) × Bool :=
  let rollouts_in_mbatch := cfg.mbatch / cfg.rollout
  if rollouts.length < rollouts_in_mbatch then (st, rollouts, none, false)
  else
    let d := discardStaleCount cfg st.train_step rollouts
    let st1 := (rollouts.take d).foldl markRolloutBufferFree st
    let st2 := { st1 with num_discarded_rollouts := st1.num_discarded_rollouts + d }
    let remaining := rollouts.drop d
    if rollouts_in_mbatch ≤ remaining.length then
      let toProcess := remaining.take rollouts_in_mbatch
      let st3 := toProcess.foldl markRolloutBufferFree st2
      (st3, remaining.drop rollouts_in_mbatch, some toProcess, true)
    else (st2, remaining, none, false)

/-- A rollout is stale for `_process_rollouts` when the learner's current
`train_step` exceeds its minimum policy version by at least
`max_policy_lag`. -/
def staleRollout (cfg : Config) (trainStep : Int) (r : Rollout) : Prop :=
  trainStep - rolloutMinVersion r ≥ cfg.max_policy_lag

instance (cfg : Config) (t : Int) (r : Rollout) : Decidable (staleRollout cfg t r) := by
  unfold staleRollout; infer_instance

theorem discardStaleCount_le_length (cfg : Config) (v : Int) (l : List Rollout) :
    discardStaleCount cfg v l ≤ l.length := by
  induction l with
  | nil => exact Nat.le_refl 0
  | cons r rs ih =>
    simp only [discardStaleCount, List.length_cons]
    split
    · omega
    · omega

theorem stale_of_mem_take_discardStaleCount (cfg : Config) (v : Int) (l : List Rollout)
    (r : Rollout) (hr : r ∈ l.take (discardStaleCount cfg v l)) : staleRollout cfg v r := by
  induction l with
  | nil => simp at hr
  | cons a rs ih =>
    simp only [discardStaleCount] at hr
    split at hr
    · next h =>
      rw [List.take_succ_cons] at hr
      rcases List.mem_cons.mp hr with h' | h'
      · exact h' ▸ h
      · exact ih h'
    · simp at hr

theorem head_drop_discardStaleCount_not_stale (cfg : Config) (v : Int) (l : List Rollout)
    (r : Rollout) (hr : (l.drop (discardStaleCount cfg v l)).head? = some r) :
    ¬ staleRollout cfg v r := by
  induction l with
  | nil => simp at hr
  | cons a rs ih =>
    simp only [discardStaleCount] at hr
    split at hr
    · exact ih (by simpa using hr)
    · next h =>
      simp only [List.drop_zero, List.head?_cons, Option.some.injEq] at hr
      exact hr ▸ h

theorem foldl_mark_train_step (l : List Rollout) (st : IntakeState) :
    (l.foldl markRolloutBufferFree st).train_step = st.train_step := by
  induction l generalizing st with
  | nil => rfl
  | cons r rs ih => simpa [List.foldl_cons, markRolloutBufferFree] using ih _

theorem foldl_mark_num_discarded (l : List Rollout) (st : IntakeState) :
    (l.foldl markRolloutBufferFree st).num_discarded_rollouts = st.num_discarded_rollouts := by
  induction l generalizing st with
  | nil => rfl
  | cons r rs ih => simpa [List.foldl_cons, markRolloutBufferFree] using ih _

theorem foldl_mark_ready_preserved (l : List Rollout) (st : IntakeState)
    (k : Nat × Nat × Nat × Nat × Nat) (hk : st.ready k = true) :
    (l.foldl markRolloutBufferFree st).ready k = true := by
  induction l generalizing st with
  | nil => exact hk
  | cons r rs ih =>
    refine ih _ ?_
    simp only [markRolloutBufferFree]
    split
    · rfl
    · exact hk

theorem foldl_mark_sets (l : List Rollout) (st : IntakeState) (r : Rollout) (hr : r ∈ l) :
    (l.foldl markRolloutBufferFree st).ready (slotKey r) = true := by
  induction l generalizing st with
  | nil => simp at hr
  | cons a rs ih =>
    rcases List.mem_cons.mp hr with rfl | h
    · rw [List.foldl_cons]
      apply foldl_mark_ready_preserved
      simp [markRolloutBufferFree]
    · rw [List.foldl_cons]
      exact ih _ h

/-- C2: for a pending list of length at least `macro_batch // rollout`,
`_process_rollouts` removes exactly the maximal contiguous stale prefix
(every removed rollout is stale and the first surviving rollout, if it was
examined, is not), sets each removed rollout's slot readiness bit to 1,
increments `num_discarded_rollouts` by the number removed, leaves
`train_step` untouched, and then forms the macro-batch from the next
`macro_batch // rollout` surviving rollouts if enough remain; for a
shorter pending list everything is returned unchanged and nothing is
discarded. -/
theorem process_rollouts_discards_stale_head (cfg : Config) (st : IntakeState)
    (rollouts : List Rollout) :
    (rollouts.length < cfg.mbatch / cfg.rollout →
      processRollouts cfg st rollouts = (st, rollouts, none, false)) ∧
    (cfg.mbatch / cfg.rollout ≤ rollouts.length →
      (∀ r ∈ rollouts.take (discardStaleCount cfg st.train_step rollouts),
        staleRollout cfg st.train_step r) ∧
      (∀ r, (rollouts.drop (discardStaleCount cfg st.train_step rollouts)).head? = some r →
        ¬ staleRollout cfg st.train_step r) ∧
      (∀ r ∈ rollouts.take (discardStaleCount cfg st.train_step rollouts),
        (processRollouts cfg st rollouts).1.ready (slotKey r) = true) ∧
      (processRollouts cfg st rollouts).1.num_discarded_rollouts =
        st.num_discarded_rollouts + discardStaleCount cfg st.train_step rollouts ∧
      (processRollouts cfg st rollouts).1.train_step = st.train_step ∧
      ((cfg.mbatch / cfg.rollout ≤
          (rollouts.drop (discardStaleCount cfg st.train_step rollouts)).length →
        (processRollouts cfg st rollouts).2.1 =
          (rollouts.drop (discardStaleCount cfg st.train_step rollouts)).drop
            (cfg.mbatch / cfg.rollout) ∧
        (processRollouts cfg st rollouts).2.2.1 =
          some ((rollouts.drop (discardStaleCount cfg st.train_step rollouts)).take
            (cfg.mbatch / cfg.rollout))) ∧
       ((rollouts.drop (discardStaleCount cfg st.train_step rollouts)).length <
          cfg.mbatch / cfg.rollout →
        (processRollouts cfg st rollouts).2.1 =
          rollouts.drop (discardStaleCount cfg st.train_step rollouts) ∧
        (processRollouts cfg st rollouts).2.2.1 = none))) := by
  constructor
  · intro hlt
    simp only [processRollouts]
    rw [if_pos hlt]
  · intro hge
    have hnotlt : ¬ rollouts.length < cfg.mbatch / cfg.rollout := not_lt.mpr hge
    refine ⟨fun r hr => stale_of_mem_take_discardStaleCount cfg st.train_step rollouts r hr,
      fun r hr => head_drop_discardStaleCount_not_stale cfg st.train_step rollouts r hr,
      ?_, ?_, ?_, ?_, ?_⟩ <;>
      simp only [processRollouts] <;> rw [if_neg hnotlt]
    · intro r hr
      split
      · exact foldl_mark_ready_preserved _ _ _ (foldl_mark_sets _ _ _ hr)
      · exact foldl_mark_sets _ _ _ hr
    · split
      · rw [foldl_mark_num_discarded, foldl_mark_num_discarded]
      · rw [foldl_mark_num_discarded]
    · split
      · rw [foldl_mark_train_step]
        exact foldl_mark_train_step _ _
      · exact foldl_mark_train_step _ _
    · intro hge2
      split
      · exact ⟨rfl, rfl⟩
      · omega
    · intro hlt2
      split
      · omega
      · exact ⟨rfl, rfl⟩

/-- C2 witness: the discard scenario of the spec (three stale rollouts at
version 0 followed by three fresh ones at version 10, `max_policy_lag = 5`,
`rollouts_in_macro_batch = 3`). -/
def cfgLag : Config :=
  { mbatch := 3, rollout := 1, recurrence := 1, batch_size := 1, max_policy_lag := 5,
    keep_checkpoints := 3, ppo_epochs := 1, target_kl := 0 }

/-- An intake state at `train_step = 10` with a cleared readiness bitmap. -/
def stLag : IntakeState :=
  { train_step := 10, num_discarded_rollouts := 0, ready := fun _ => false }

/-- A rollout recorded at policy version `v` in trajectory slot `i`. -/
def mkRollout (i : Nat) (v : Int) : Rollout :=
  { worker_idx := 0, split_idx := 0, env_idx := 0, agent_idx := 0, traj_buffer_idx := i,
    policy_version := [v] }

/-- The six-rollout pending list of the discard scenario. -/
def pendingLag : List Rollout :=
  [mkRollout 0 0, mkRollout 1 0, mkRollout 2 0, mkRollout 3 10, mkRollout 4 10, mkRollout 5 10]

/-- C2 witness: in the discard scenario (three stale rollouts at version 0
followed by three fresh ones at version 10), the stale prefix is stale, the
counter rises by the number discarded, and the macro-batch is formed from
the fresh rollouts. -/
theorem process_rollouts_discards_stale_head_witness :
    (∀ r ∈ pendingLag.take (discardStaleCount cfgLag stLag.train_step pendingLag),
      staleRollout cfgLag stLag.train_step r) ∧
    (processRollouts cfgLag stLag pendingLag).1.num_discarded_rollouts =
      stLag.num_discarded_rollouts + discardStaleCount cfgLag stLag.train_step pendingLag ∧
    (processRollouts cfgLag stLag pendingLag).2.2.1 =
      some ((pendingLag.drop (discardStaleCount cfgLag stLag.train_step pendingLag)).take
        (cfgLag.mbatch / cfgLag.rollout)) :=
  ⟨((process_rollouts_discards_stale_head cfgLag stLag pendingLag).2 (by decide)).1,
   ((process_rollouts_discards_stale_head cfgLag stLag pendingLag).2 (by decide)).2.2.2.1,
   (((process_rollouts_discards_stale_head cfgLag stLag pendingLag).2
      (by decide)).2.2.2.2.2.1 (by decide)).2⟩

theorem head?_take_eq {α : Type} (n : Nat) (l : List α) (r : α)
    (h : (l.take n).head? = some r) : l.head? = some r := by
  cases n with
  | zero => simp at h
  | succ m =>
    cases l with
    | nil => simp at h
    | cons a as => simpa using h

/-- C1 (counterexample): a stale rollout that sits behind a fresh rollout in
the pending list is admitted into the macro-batch: with
`max_policy_lag = 5`, `train_step = 10` and pending list
[fresh(v=10), stale(v=0), fresh(v=10)], `_process_rollouts` forms a
macro-batch containing the stale rollout, whose lag is `10 ≥ 5`. -/
theorem stale_rollout_admitted_into_batch :
    (processRollouts cfgLag stLag [mkRollout 0 10, mkRollout 1 0, mkRollout 2 10]).2.2.1 =
      some [mkRollout 0 10, mkRollout 1 0, mkRollout 2 10] ∧
    staleRollout cfgLag stLag.train_step (mkRollout 1 0) := by
  exact ⟨by decide, by decide⟩

/-- C1 (amended): the discard pass guarantees only that the FIRST rollout of
every formed macro-batch satisfies the lag bound
`train_step - min(policy_version) < max_policy_lag`; a stale rollout that
is preceded by a non-stale one can still enter the batch. -/
theorem macro_batch_head_not_stale (cfg : Config) (st : IntakeState) (rollouts : List Rollout)
    (batch : List Rollout) (hb : (processRollouts cfg st rollouts).2.2.1 = some batch)
    (r : Rollout) (hr : batch.head? = some r) : ¬ staleRollout cfg st.train_step r := by
  simp only [processRollouts] at hb
  by_cases h1 : rollouts.length < cfg.mbatch / cfg.rollout
  · rw [if_pos h1] at hb
    simp at hb
  · rw [if_neg h1] at hb
    split at hb
    · simp only [Option.some.injEq] at hb
      subst hb
      exact head_drop_discardStaleCount_not_stale cfg st.train_step rollouts r
        (head?_take_eq _ _ _ hr)
    · simp at hb

/-- C1 (amended) witness: in the discard scenario the head of the formed
macro-batch is the fresh rollout at version 10, which is not stale. -/
theorem macro_batch_head_not_stale_witness :
    (processRollouts cfgLag stLag pendingLag).2.2.1 =
      some [mkRollout 3 10, mkRollout 4 10, mkRollout 5 10] ∧
    ¬ staleRollout cfgLag stLag.train_step (mkRollout 3 10) :=
  ⟨by decide,
   macro_batch_head_not_stale cfgLag stLag pendingLag
     [mkRollout 3 10, mkRollout 4 10, mkRollout 5 10] (by decide) (mkRollout 3 10) rfl⟩

/-- The adaptive-KL update at the end of `_train`: if the final
`kl_old_mean` exceeds `target_kl` multiply `kl_coeff` by 1.5, else if it is
below `target_kl / 2` divide by 1.5, then clamp from below at `1e-6`
(floats modelled as rationals). -/
def updateKlCoeff (target_kl kl_old_mean kl_coeff : Rat) : Rat :=
  let k1 :=
    if kl_old_mean > target_kl then kl_coeff * 1.5
    else if kl_old_mean < target_kl / 2 then kl_coeff / 1.5
    else kl_coeff
  max k1 1e-6

/-- The function `f` of claim C4, written from the spec's words, for
comparison with the code's `updateKlCoeff`. -/
def klCoeffSpecFn (target_kl kl_old_mean k : Rat) : Rat :=
  if kl_old_mean > target_kl then k * 1.5
  else if kl_old_mean < target_kl / 2 then k / 1.5
  else k

/-- C4: after the adaptive-KL step of `_train`, the new `kl_coeff` equals
`max 1e-6 (f kl_coeff)` with `f` the spec's three-way adjustment, and in
particular `kl_coeff ≥ 1e-6` holds after every training step. -/
theorem train_updates_kl_coeff (target_kl kl_old_mean kl_coeff : Rat) :
    updateKlCoeff target_kl kl_old_mean kl_coeff =
      max 1e-6 (klCoeffSpecFn target_kl kl_old_mean kl_coeff) ∧
    1e-6 ≤ updateKlCoeff target_kl kl_old_mean kl_coeff := by
  constructor
  · rw [updateKlCoeff, klCoeffSpecFn, max_comm]
  · exact le_max_right _ _

/-- Python's true division, with `ZeroDivisionError` modelled as `none`. -/
def pyDivQ (a b : Rat) : Option Rat :=
  if b = 0 then none else some (a / b)

/-- `_discarding_rate`: return 0 for an empty sliding window, otherwise
divide the discarded-count delta between the last and first samples by the
timestamp delta.  Window entries are `(timestamp, discarded_count)` pairs
as appended by `_experience_collection_rate_stats`. -/
def discardingRate (window : List (Rat × Rat)) : Option Rat :=
  if window.length ≤ 0 then some 0
  else
    let first := window.headD (0, 0)
    let lastSample := window.getLastD (0, 0)
    pyDivQ (lastSample.2 - first.2) (lastSample.1 - first.1)

/-- C10 (counterexample): `_discarding_rate` does not return 0 only when
the window is empty: a two-sample window whose discarded counts coincide
(here timestamps 0 and 1, both counts 5) is non-empty yet the function
returns 0. -/
theorem discarding_rate_zero_on_nonempty_window :
    discardingRate [((0 : Rat), (5 : Rat)), (1, 5)] = some 0 ∧
    ([((0 : Rat), (5 : Rat)), (1, 5)] : List (Rat × Rat)) ≠ [] := by
  constructor
  · simp [discardingRate, pyDivQ]
  · simp

/-- C10 (amended): `_discarding_rate` returns 0 when the window is empty;
when the window holds exactly one sample, the first and last entries
coincide, the time delta is exactly 0, and the unguarded division raises
`ZeroDivisionError` (modelled as `none`) instead of returning a rate. -/
theorem discarding_rate_empty_and_singleton :
    discardingRate [] = some 0 ∧
    (∀ t c : Rat,
      ([((t : Rat), (c : Rat))].headD (0, 0) = [((t : Rat), (c : Rat))].getLastD (0, 0)) ∧
      ([((t : Rat), (c : Rat))].getLastD (0, 0)).1 - ([((t : Rat), (c : Rat))].headD (0, 0)).1
        = 0 ∧
      discardingRate [(t, c)] = none) := by
  refine ⟨rfl, fun t c => ⟨rfl, by simp, ?_⟩⟩
  simp [discardingRate, pyDivQ]

/-- The mutable learner state accessed by `_load_state`: training progress
counters, the KL coefficient and the abstract model/optimizer states. -/
structure TrainState (M O : Type) where
  train_step : Int
  env_steps : Int
  kl_coeff : Rat
  model : M
  optimizer : O
deriving DecidableEq, Repr

/-- A deserialized checkpoint dictionary, as produced by
`_get_checkpoint_dict`. -/
structure CheckpointData (M O : Type) where
  train_step : Int
  env_steps : Int
  kl_coeff : Rat
  model : M
  optimizer : O
deriving DecidableEq, Repr

/-- `_load_state`: overwrite `kl_coeff`, model and optimizer state from the
checkpoint, and overwrite `train_step`/`env_steps` only when
`load_progress` is set. -/
def loadStateFn {M O : Type} (s : TrainState M O) (c : CheckpointData M O)
    (load_progress : Bool) : TrainState M O :=
  { train_step := if load_progress then c.train_step else s.train_step,
    env_steps := if load_progress then c.env_steps else s.env_steps,
    kl_coeff := c.kl_coeff, model := c.model, optimizer := c.optimizer }

/-- `load_from_checkpoint`: with no checkpoint found the state is kept;
otherwise `_load_state` runs with
`load_progress = (policy_id == self.policy_id)`.  The checkpoint lookup in
the source policy's directory is abstracted into the `ckpt` argument. -/
def loadFromCheckpoint {M O : Type} (s : TrainState M O) (self_policy_id policy_id : Nat)
    (ckpt : Option (CheckpointData M O)) : TrainState M O :=
  match ckpt with
  | none => s
  | some c => loadStateFn s c (policy_id == self_policy_id)

/-- C7: a cross-policy (PBT) load replaces model, optimizer state and
`kl_coeff` from the source policy's checkpoint while preserving the
learner's own `train_step` and `env_steps`; a same-policy load also
overwrites `train_step` and `env_steps` from the checkpoint. -/
theorem load_from_checkpoint_frame {M O : Type} (s : TrainState M O)
    (c : CheckpointData M O) (self_policy_id policy_id : Nat) :
    (policy_id ≠ self_policy_id →
      loadFromCheckpoint s self_policy_id policy_id (some c) =
        { train_step := s.train_step, env_steps := s.env_steps, kl_coeff := c.kl_coeff,
          model := c.model, optimizer := c.optimizer }) ∧
    (policy_id = self_policy_id →
      loadFromCheckpoint s self_policy_id policy_id (some c) =
        { train_step := c.train_step, env_steps := c.env_steps, kl_coeff := c.kl_coeff,
          model := c.model, optimizer := c.optimizer }) := by
  constructor
  · intro h
    simp [loadFromCheckpoint, loadStateFn, beq_iff_eq, h]
  · intro h
    simp [loadFromCheckpoint, loadStateFn, beq_iff_eq, h]

/-- C7 witness: the PBT scenario of the spec: learner 0 at
`train_step = 100`, `env_steps = 10000` loads policy 1's checkpoint at
`train_step = 80`, `env_steps = 8000`; parameters and `kl_coeff` come from
the checkpoint, the progress counters stay. -/
theorem load_from_checkpoint_frame_witness :
    loadFromCheckpoint
        (M := Nat) (O := Nat)
        { train_step := 100, env_steps := 10000, kl_coeff := 1, model := 7, optimizer := 8 }
        0 1
        (some { train_step := 80, env_steps := 8000, kl_coeff := 2, model := 3,
                optimizer := 4 }) =
      { train_step := 100, env_steps := 10000, kl_coeff := 2, model := 3, optimizer := 4 } :=
  (load_from_checkpoint_frame
    { train_step := 100, env_steps := 10000, kl_coeff := 1, model := 7, optimizer := 8 }
    { train_step := 80, env_steps := 8000, kl_coeff := 2, model := 3, optimizer := 4 }
    0 1).1 (by decide)

/-- `np.arange(0, stop, step)` for a positive step. -/
def arange0 (stop step : Nat) : List Nat :=
  (List.range ((stop + step - 1) / step)).map (· * step)

/-- The contiguous index window `np.arange(i, i + recurrence)` of one
mini-trajectory. -/
def trajectoryWindow (R s : Nat) : List Nat :=
  (List.range R).map (s + ·)

/-- The complete index array built by `_get_minibatches` from the shuffled
block starts: each start is expanded to its window and the windows are
concatenated. -/
def minibatchIndices (R : Nat) (blockPerm : List Nat) : List Nat :=
  (blockPerm.map (trajectoryWindow R)).flatten

/-- `np.split(indices, num)` into `num` equal chunks. -/
def splitChunks (bs : Nat) : Nat → List Nat → List (List Nat)
  | 0, _ => []
  | n + 1, l => l.take bs :: splitChunks bs n (l.drop bs)

/-- `_get_minibatches`: the `[None]` sentinel of the `macro_batch ==
batch_size` fast path becomes `[none]`; otherwise the block starts
`np.arange(0, experience_size, recurrence)` are shuffled (the random
permutation is abstracted as the `blockPerm` argument, constrained in the
theorems to be a permutation of the block starts), expanded to windows,
concatenated and split into `experience_size // batch_size` minibatches. -/
def getMinibatches (cfg : Config) (experience_size : Nat) (blockPerm : List Nat) :
    List (Option (List Nat)) :=
  if cfg.mbatch = cfg.batch_size then [none]
  else
    (splitChunks cfg.batch_size (experience_size / cfg.batch_size)
      (minibatchIndices cfg.recurrence blockPerm)).map some

/-- The conclusion of claim C3, written from the spec's words: the
minibatches are index lists whose concatenation is a permutation of
`[0, experience_size)`, there are `experience_size / batch_size` of them,
all of size `batch_size`, and each one is a concatenation of contiguous
windows of length `recurrence` starting at multiples of `recurrence`. -/
def minibatchesWellFormed (R bs size : Nat) (mbs : List (Option (List Nat))) : Prop :=
  ∃ l : List (List Nat),
    mbs = l.map some ∧
    l.flatten.Perm (List.range size) ∧
    l.length = size / bs ∧
    (∀ mb ∈ l, mb.length = bs) ∧
    (∀ mb ∈ l, ∃ ss : List Nat, (∀ s ∈ ss, R ∣ s) ∧
      mb = (ss.map (trajectoryWindow R)).flatten)

theorem trajectoryWindow_length (R s : Nat) : (trajectoryWindow R s).length = R := by
  simp [trajectoryWindow]

theorem flatten_map_window_length (R : Nat) (ss : List Nat) :
    ((ss.map (trajectoryWindow R)).flatten).length = R * ss.length := by
  induction ss with
  | nil => simp
  | cons s t ih =>
    simp only [List.map_cons, List.flatten_cons, List.length_append, ih,
      trajectoryWindow_length, List.length_cons]
    rw [Nat.mul_add, Nat.mul_one, Nat.add_comm]

theorem flatten_map_perm {α β : Type} (f : α → List β) {l₁ l₂ : List α} (h : l₁.Perm l₂) :
    ((l₁.map f).flatten).Perm ((l₂.map f).flatten) := by
  induction h with
  | nil => exact List.Perm.refl _
  | cons x h ih =>
    simp only [List.map_cons, List.flatten_cons]
    exact ih.append_left (f x)
  | swap x y l =>
    simp only [List.map_cons, List.flatten_cons, ← List.append_assoc]
    exact (List.perm_append_comm).append_right _
  | trans h1 h2 ih1 ih2 => exact ih1.trans ih2

theorem splitChunks_length (bs : Nat) (n : Nat) (l : List Nat) :
    (splitChunks bs n l).length = n := by
  induction n generalizing l with
  | zero => rfl
  | succ m ih => simp [splitChunks, ih]

theorem splitChunks_flatten (bs : Nat) (n : Nat) (l : List Nat) (h : l.length = n * bs) :
    (splitChunks bs n l).flatten = l := by
  induction n generalizing l with
  | zero =>
    have : l = [] := List.length_eq_zero.mp (by omega)
    simp [splitChunks, this]
  | succ m ih =>
    simp only [splitChunks, List.flatten_cons]
    rw [ih (l.drop bs) (by rw [List.length_drop, h, Nat.succ_mul]; omega)]
    exact List.take_append_drop bs l

theorem splitChunks_mem_length (bs : Nat) (n : Nat) (l : List Nat) (h : l.length = n * bs)
    (mb : List Nat) (hmb : mb ∈ splitChunks bs n l) : mb.length = bs := by
  induction n generalizing l with
  | zero => simp [splitChunks] at hmb
  | succ m ih =>
    simp only [splitChunks, List.mem_cons] at hmb
    rcases hmb with rfl | hmb
    · rw [List.length_take]
      have hble : bs ≤ l.length := by
        rw [h]
        exact Nat.le_mul_of_pos_left bs (Nat.succ_pos m)
      omega
    · exact ih (l.drop bs) (by rw [List.length_drop, h, Nat.succ_mul]; omega) hmb

theorem splitChunks_mem_eq (bs : Nat) (n : Nat) (l : List Nat)
    (mb : List Nat) (hmb : mb ∈ splitChunks bs n l) :
    ∃ k, k < n ∧ mb = (l.drop (k * bs)).take bs := by
  induction n generalizing l with
  | zero => simp [splitChunks] at hmb
  | succ m ih =>
    simp only [splitChunks, List.mem_cons] at hmb
    rcases hmb with rfl | hmb
    · exact ⟨0, by omega, by simp⟩
    · obtain ⟨k, hk, heq⟩ := ih (l.drop bs) hmb
      refine ⟨k + 1, by omega, ?_⟩
      rw [heq, List.drop_drop]
      congr 1
      rw [Nat.succ_mul, Nat.add_comm]

theorem arange0_eq (R m : Nat) (hR : 0 < R) :
    arange0 (R * m) R = (List.range m).map (· * R) := by
  unfold arange0
  have hdiv : (R * m + R - 1) / R = m := by
    rw [show R * m + R - 1 = R * m + (R - 1) by omega, Nat.mul_add_div hR,
      Nat.div_eq_of_lt (by omega)]
    omega
  rw [hdiv]

theorem windows_blockStarts (R m : Nat) :
    ((((List.range m).map (· * R)).map (trajectoryWindow R)).flatten) = List.range (R * m) := by
  induction m with
  | zero => simp
  | succ k ih =>
    rw [List.range_succ, List.map_append, List.map_append, List.flatten_append, ih]
    rw [show R * (k + 1) = R * k + R by ring, List.range_add]
    simp only [List.map_cons, List.map_nil, List.flatten_cons, List.flatten_nil,
      List.append_nil]
    congr 1
    unfold trajectoryWindow
    congr 1
    funext i
    ring

theorem drop_flatten_uniform (R : Nat) (a : Nat) (L : List (List Nat))
    (h : ∀ x ∈ L, x.length = R) :
    L.flatten.drop (a * R) = (L.drop a).flatten := by
  induction a generalizing L with
  | zero => simp
  | succ b ih =>
    cases L with
    | nil => simp
    | cons x xs =>
      rw [List.flatten_cons, show (b + 1) * R = x.length + b * R by
        rw [h x (List.mem_cons_self x xs)]; ring, List.drop_append]
      rw [ih xs (fun y hy => h y (List.mem_cons_of_mem x hy))]
      simp

theorem take_flatten_uniform (R : Nat) (b : Nat) (L : List (List Nat))
    (h : ∀ x ∈ L, x.length = R) :
    L.flatten.take (b * R) = (L.take b).flatten := by
  induction b generalizing L with
  | zero => simp
  | succ c ih =>
    cases L with
    | nil => simp
    | cons x xs =>
      rw [List.flatten_cons, show (c + 1) * R = x.length + c * R by
        rw [h x (List.mem_cons_self x xs)]; ring, List.take_append]
      rw [ih xs (fun y hy => h y (List.mem_cons_of_mem x hy))]
      simp

/-- C3 (amended): when `macro_batch ≠ batch_size`, `batch_size` and
`recurrence` divide `experience_size`, and additionally `recurrence`
divides `batch_size` (which `_train` enforces through its
`num_timesteps * num_trajectories == batch_size` assertion), the
minibatches returned by `_get_minibatches` cover `[0, experience_size)`
exactly once, come as `experience_size / batch_size` groups of equal size
`batch_size`, and each minibatch is a concatenation of contiguous windows
of length `recurrence` starting at multiples of `recurrence`; this holds
for every shuffle of the block starts, in particular in the boundary case
`recurrence == rollout`. -/
theorem get_minibatches_partition (cfg : Config) (experience_size : Nat)
    (blockPerm : List Nat)
    (hmb : cfg.mbatch ≠ cfg.batch_size)
    (hbs : 0 < cfg.batch_size) (hR : 0 < cfg.recurrence)
    (hdvd1 : cfg.batch_size ∣ experience_size)
    (hdvd2 : cfg.recurrence ∣ experience_size)
    (hdvd3 : cfg.recurrence ∣ cfg.batch_size)
    (hperm : blockPerm.Perm (arange0 experience_size cfg.recurrence)) :
    minibatchesWellFormed cfg.recurrence cfg.batch_size experience_size
      (getMinibatches cfg experience_size blockPerm) := by
  obtain ⟨m, hm⟩ := hdvd2
  have hlenp : blockPerm.length = m := by
    rw [hperm.length_eq, hm, arange0_eq cfg.recurrence m hR, List.length_map,
      List.length_range]
  have hindlen : (minibatchIndices cfg.recurrence blockPerm).length = experience_size := by
    rw [minibatchIndices, flatten_map_window_length, hlenp, hm]
  have hchlen : (minibatchIndices cfg.recurrence blockPerm).length =
      (experience_size / cfg.batch_size) * cfg.batch_size := by
    rw [hindlen, Nat.div_mul_cancel hdvd1]
  have hWlen : ∀ x ∈ blockPerm.map (trajectoryWindow cfg.recurrence),
      x.length = cfg.recurrence := by
    intro x hx
    obtain ⟨s, _, rfl⟩ := List.mem_map.mp hx
    exact trajectoryWindow_length cfg.recurrence s
  refine ⟨splitChunks cfg.batch_size (experience_size / cfg.batch_size)
    (minibatchIndices cfg.recurrence blockPerm), ?_, ?_, ?_, ?_, ?_⟩
  · unfold getMinibatches
    rw [if_neg hmb]
  · rw [splitChunks_flatten _ _ _ hchlen]
    have h1 : (minibatchIndices cfg.recurrence blockPerm).Perm
        (minibatchIndices cfg.recurrence (arange0 experience_size cfg.recurrence)) :=
      flatten_map_perm _ hperm
    have h2 : minibatchIndices cfg.recurrence (arange0 experience_size cfg.recurrence) =
        List.range experience_size := by
      rw [minibatchIndices, hm, arange0_eq cfg.recurrence m hR, windows_blockStarts]
    rw [h2] at h1
    exact h1
  · exact splitChunks_length _ _ _
  · intro mb hmbm
    exact splitChunks_mem_length _ _ _ hchlen mb hmbm
  · intro mb hmbm
    obtain ⟨k, hk, hkeq⟩ := splitChunks_mem_eq _ _ _ mb hmbm
    obtain ⟨q, hq⟩ := hdvd3
    refine ⟨(blockPerm.drop (k * q)).take q, ?_, ?_⟩
    · intro s hs
      have hs1 : s ∈ blockPerm := List.mem_of_mem_drop (List.mem_of_mem_take hs)
      have hs2 : s ∈ arange0 experience_size cfg.recurrence := hperm.subset hs1
      unfold arange0 at hs2
      obtain ⟨i, _, rfl⟩ := List.mem_map.mp hs2
      exact ⟨i, Nat.mul_comm i cfg.recurrence⟩
    · rw [hkeq, minibatchIndices,
        show k * cfg.batch_size = (k * q) * cfg.recurrence by rw [hq]; ring,
        drop_flatten_uniform cfg.recurrence _ _ hWlen,
        show cfg.batch_size = q * cfg.recurrence by rw [hq]; ring,
        take_flatten_uniform cfg.recurrence _ _
          (fun y hy => hWlen y (List.mem_of_mem_drop hy)),
        List.map_take, List.map_drop]

/-- The configuration of the C3 counterexample: `recurrence = 4` does not
divide `batch_size = 2`, yet all hypotheses stated in the claim hold. -/
def cfgMB : Config :=
  { mbatch := 16, rollout := 8, recurrence := 4, batch_size := 2, max_policy_lag := 5,
    keep_checkpoints := 3, ppo_epochs := 1, target_kl := 0 }

/-- C3 (counterexample): with `experience_size = 8`,
`macro_batch = 16 ≠ batch_size = 2`, `8 % 2 = 0`, `8 % 4 = 0` and the
identity shuffle of the block starts, the first minibatch is `[0, 1]`,
which is not a concatenation of contiguous windows of length
`recurrence = 4`, so the claim's conclusion fails. -/
theorem get_minibatches_counterexample :
    cfgMB.mbatch ≠ cfgMB.batch_size ∧
    8 % cfgMB.batch_size = 0 ∧ 8 % cfgMB.recurrence = 0 ∧
    ([0, 4] : List Nat).Perm (arange0 8 cfgMB.recurrence) ∧
    ¬ minibatchesWellFormed cfgMB.recurrence cfgMB.batch_size 8
        (getMinibatches cfgMB 8 [0, 4]) := by
  refine ⟨by decide, by decide, by decide, by decide, ?_⟩
  rintro ⟨l, hmap, -, -, -, hwin⟩
  have h01 : [0, 1] ∈ l := by
    have hmem : some [0, 1] ∈ getMinibatches cfgMB 8 [0, 4] := by decide
    rw [hmap] at hmem
    obtain ⟨x, hx, hxe⟩ := List.mem_map.mp hmem
    obtain rfl : x = [0, 1] := by injection hxe
    exact hx
  obtain ⟨ss, hdvd, heq⟩ := hwin [0, 1] h01
  have hlen := congrArg List.length heq
  rw [flatten_map_window_length] at hlen
  have hR4 : cfgMB.recurrence = 4 := rfl
  rw [hR4] at hlen
  simp only [List.length_cons, List.length_nil] at hlen
  omega

/-- A configuration satisfying the amended C3 hypotheses, in the boundary
case `recurrence == rollout`. -/
def cfgMB2 : Config :=
  { mbatch := 16, rollout := 4, recurrence := 4, batch_size := 4, max_policy_lag := 5,
    keep_checkpoints := 3, ppo_epochs := 1, target_kl := 0 }

/-- C3 witness: a concrete shuffle `[4, 0]` of the block starts of an
experience of size 8 with `recurrence = rollout = 4`, `batch_size = 4`:
the two minibatches are well-formed. -/
theorem get_minibatches_partition_witness :
    minibatchesWellFormed cfgMB2.recurrence cfgMB2.batch_size 8
      (getMinibatches cfgMB2 8 [4, 0]) :=
  get_minibatches_partition cfgMB2 8 [4, 0] (by decide) (by decide) (by decide)
    (by decide) (by decide) (by decide) (by decide)

/-- A filename, modelled as its list of characters; Python's `sorted` on
strings is the lexicographic code-point order, i.e. `≤` on `List Char`. -/
abbrev FileName := List Char

/-- `get_checkpoints`: `sorted(glob.glob(join(dir, 'checkpoint_*')))`, over
a directory modelled as the list of its checkpoint filenames. -/
def get_checkpoints (files : List FileName) : List FileName :=
  files.insertionSort (· ≤ ·)

/-- The selection step of `load_checkpoint`: `None` when no checkpoints
were found, otherwise the last element `checkpoints[-1]` of the sorted
enumeration. -/
def loadCheckpointSelect (checkpoints : List FileName) : Option FileName :=
  if checkpoints.length ≤ 0 then none else checkpoints.getLast?

/-- `os.rename(tmp_filepath, filepath)`: the target name appears in the
directory, replacing any existing file of the same name. -/
def renameInto (name : FileName) (files : List FileName) : List FileName :=
  if name ∈ files then files else files ++ [name]

/-- `os.remove`: delete the (first) file with the given name from the
directory listing. -/
def eraseFile : List FileName → FileName → List FileName
  | [], _ => []
  | x :: xs, a => if x = a then xs else x :: eraseFile xs a

/-- The rotation loop of `_save`: while more than `keep_checkpoints`
checkpoints exist, delete the lexicographically smallest one.  The loop is
given fuel (each iteration removes one file, so the directory size is
enough fuel); it returns the remaining files and the deleted files. -/
def deleteOldestLoop (keep : Nat) : Nat → List FileName → List FileName × List FileName
  | 0, files => (files, [])
  | fuel + 1, files =>
    if keep < (get_checkpoints files).length then
      let oldest := (get_checkpoints files).headD []
      let rest := deleteOldestLoop keep fuel (eraseFile files oldest)
      (rest.1, oldest :: rest.2)
    else (files, [])

/-- `_save` after serialization: rename the temporary file into the
checkpoint directory, then rotate.  Returns (files kept, files deleted). -/
def saveRotate (keep : Nat) (files : List FileName) (name : FileName) :
    List FileName × List FileName :=
  let files1 := renameInto name files
  deleteOldestLoop keep files1.length files1

/-- A sequence of `_save` calls into an initially empty checkpoint
directory, accumulating all deleted files. -/
def multiSave (keep : Nat) (names : List FileName) : List FileName × List FileName :=
  names.foldl (fun acc n =>
    ((saveRotate keep acc.1 n).1, acc.2 ++ (saveRotate keep acc.1 n).2)) ([], [])

theorem eraseFile_subset (l : List FileName) (a : FileName) : eraseFile l a ⊆ l := by
  induction l with
  | nil => simp [eraseFile]
  | cons x xs ih =>
    simp only [eraseFile]
    split
    · exact List.subset_cons_self x xs
    · exact List.cons_subset_cons x ih

theorem length_eraseFile_of_mem (l : List FileName) (a : FileName) (h : a ∈ l) :
    (eraseFile l a).length = l.length - 1 := by
  induction l with
  | nil => simp at h
  | cons x xs ih =>
    simp only [eraseFile]
    split
    · simp
    · next hne =>
      have hmem : a ∈ xs := by
        rcases List.mem_cons.mp h with rfl | h2
        · exact absurd rfl hne
        · exact h2
      have hpos : 0 < xs.length := List.length_pos_of_mem hmem
      simp only [List.length_cons, ih hmem]
      omega

theorem perm_cons_eraseFile (l : List FileName) (a : FileName) (h : a ∈ l) :
    l.Perm (a :: eraseFile l a) := by
  induction l with
  | nil => simp at h
  | cons x xs ih =>
    simp only [eraseFile]
    split
    · next heq => rw [heq]
    · next hne =>
      have hmem : a ∈ xs := by
        rcases List.mem_cons.mp h with rfl | h2
        · exact absurd rfl hne
        · exact h2
      exact ((ih hmem).cons x).trans (List.Perm.swap a x _)

theorem get_checkpoints_perm (files : List FileName) :
    (get_checkpoints files).Perm files :=
  List.perm_insertionSort _ files

theorem get_checkpoints_length (files : List FileName) :
    (get_checkpoints files).length = files.length :=
  (get_checkpoints_perm files).length_eq

theorem get_checkpoints_sorted (files : List FileName) :
    (get_checkpoints files).Sorted (· ≤ ·) :=
  List.sorted_insertionSort _ files

theorem get_checkpoints_headD_min (files : List FileName) (hne : files ≠ []) :
    (get_checkpoints files).headD [] ∈ files ∧
      ∀ y ∈ files, (get_checkpoints files).headD [] ≤ y := by
  have hlen : (get_checkpoints files).length = files.length := get_checkpoints_length files
  cases hgc : get_checkpoints files with
  | nil =>
    rw [hgc] at hlen
    exact absurd (List.length_eq_zero.mp hlen.symm) hne
  | cons a t =>
    have hsorted := get_checkpoints_sorted files
    rw [hgc] at hsorted
    have hmem : ∀ y ∈ files, y ∈ a :: t := by
      intro y hy
      rw [← hgc]
      exact (get_checkpoints_perm files).mem_iff.mpr hy
    constructor
    · have : a ∈ files := (get_checkpoints_perm files).subset (by rw [hgc]; simp)
      simpa using this
    · intro y hy
      rcases List.mem_cons.mp (hmem y hy) with rfl | hyt
      · simp
      · simpa using List.rel_of_sorted_cons hsorted y hyt

theorem deleteOldestLoop_length (keep fuel : Nat) (files : List FileName)
    (h : files.length ≤ fuel) : (deleteOldestLoop keep fuel files).1.length ≤ keep := by
  induction fuel generalizing files with
  | zero => simpa [deleteOldestLoop] using by omega
  | succ f ih =>
    simp only [deleteOldestLoop]
    split
    · next hlt =>
      have hne : files ≠ [] := by
        intro hnil
        rw [hnil] at hlt
        simp [get_checkpoints_length] at hlt
      have hmem := (get_checkpoints_headD_min files hne).1
      have herase : (eraseFile files ((get_checkpoints files).headD [])).length =
          files.length - 1 := length_eraseFile_of_mem _ _ hmem
      exact ih _ (by omega)
    · next hge =>
      rw [get_checkpoints_length] at hge
      simpa using by omega

theorem deleteOldestLoop_perm (keep fuel : Nat) (files : List FileName) :
    ((deleteOldestLoop keep fuel files).1 ++ (deleteOldestLoop keep fuel files).2).Perm
      files := by
  induction fuel generalizing files with
  | zero => simp [deleteOldestLoop]
  | succ f ih =>
    simp only [deleteOldestLoop]
    split
    · next hlt =>
      have hne : files ≠ [] := by
        intro hnil
        rw [hnil] at hlt
        simp [get_checkpoints_length] at hlt
      have hmem := (get_checkpoints_headD_min files hne).1
      refine List.Perm.trans List.perm_middle ?_
      refine List.Perm.trans (List.Perm.cons _ (ih _)) ?_
      exact (perm_cons_eraseFile files _ hmem).symm
    · simp
  
theorem deleteOldestLoop_deleted_min (keep fuel : Nat) (files : List FileName) :
    ∀ x ∈ (deleteOldestLoop keep fuel files).2,
      ∀ y ∈ (deleteOldestLoop keep fuel files).1, x ≤ y := by
  induction fuel generalizing files with
  | zero => simp [deleteOldestLoop]
  | succ f ih =>
    simp only [deleteOldestLoop]
    split
    · next hlt =>
      have hne : files ≠ [] := by
        intro hnil
        rw [hnil] at hlt
        simp [get_checkpoints_length] at hlt
      intro x hx y hy
      rcases List.mem_cons.mp hx with rfl | hx2
      · have hy2 : y ∈ eraseFile files ((get_checkpoints files).headD []) := by
          have := (deleteOldestLoop_perm keep f
            (eraseFile files ((get_checkpoints files).headD []))).subset
          exact this (List.mem_append.mpr (Or.inl hy))
        exact (get_checkpoints_headD_min files hne).2 y (eraseFile_subset files _ hy2)
      · exact ih _ x hx2 y hy
    · simp

theorem deleteOldestLoop_no_delete (keep fuel : Nat) (files : List FileName)
    (h : files.length ≤ keep) : deleteOldestLoop keep fuel files = (files, []) := by
  cases fuel with
  | zero => rfl
  | succ f =>
    simp only [deleteOldestLoop]
    rw [if_neg (by rw [get_checkpoints_length]; omega)]

theorem renameInto_length (name : FileName) (files : List FileName) :
    (renameInto name files).length ≤ files.length + 1 := by
  unfold renameInto
  split
  · omega
  · simp

theorem multiSave_aux (keep : Nat) (names : List FileName)
    (acc : List FileName × List FileName)
    (h : acc.1.length + names.length ≤ keep) :
    (names.foldl (fun acc n =>
        ((saveRotate keep acc.1 n).1, acc.2 ++ (saveRotate keep acc.1 n).2)) acc).2 = acc.2 ∧
    (names.foldl (fun acc n =>
        ((saveRotate keep acc.1 n).1, acc.2 ++ (saveRotate keep acc.1 n).2)) acc).1.length ≤
      acc.1.length + names.length := by
  induction names generalizing acc with
  | nil => exact ⟨rfl, by simp⟩
  | cons n ns ih =>
    simp only [List.foldl_cons, List.length_cons] at *
    have hlen1 : (renameInto n acc.1).length ≤ acc.1.length + 1 := renameInto_length n acc.1
    have hnodel : saveRotate keep acc.1 n = (renameInto n acc.1, []) := by
      unfold saveRotate
      exact deleteOldestLoop_no_delete keep _ _ (by omega)
    rw [hnodel]
    have := ih ((renameInto n acc.1, acc.2 ++ [])) (by simp; omega)
    simp only [List.append_nil] at this ⊢
    exact ⟨this.1, by omega⟩

/-- C5: after every completed `_save`, at most `keep_checkpoints` files
remain in the checkpoint directory; the kept and deleted files together
are exactly the directory contents after the rename, every deleted file is
lexicographically ≤ every kept file (only the oldest entries are deleted);
and a sequence of at most `keep_checkpoints - 1` saves into an initially
empty directory deletes nothing. -/
theorem save_rotates_checkpoints (keep : Nat) (files : List FileName) (name : FileName)
    (names : List FileName) :
    (saveRotate keep files name).1.length ≤ keep ∧
    ((saveRotate keep files name).1 ++ (saveRotate keep files name).2).Perm
      (renameInto name files) ∧
    (∀ x ∈ (saveRotate keep files name).2, ∀ y ∈ (saveRotate keep files name).1, x ≤ y) ∧
    (names.length ≤ keep - 1 → (multiSave keep names).2 = []) := by
  refine ⟨?_, ?_, ?_, ?_⟩
  · exact deleteOldestLoop_length keep _ _ (Nat.le_refl _)
  · exact deleteOldestLoop_perm keep _ _
  · exact deleteOldestLoop_deleted_min keep _ _
  · intro hn
    unfold multiSave
    exact (multiSave_aux keep names ([], []) (by simpa using by omega)).1

/-- C5 witness: with `keep_checkpoints = 2`, saving a third checkpoint
into a directory already holding two keeps the bound, and two saves into
an empty directory delete nothing. -/
theorem save_rotates_checkpoints_witness :
    (saveRotate 2 [['b'], ['c']] ['a']).1.length ≤ 2 ∧
    ((saveRotate 2 [['b'], ['c']] ['a']).1 ++ (saveRotate 2 [['b'], ['c']] ['a']).2).Perm
      (renameInto ['a'] [['b'], ['c']]) ∧
    (∀ x ∈ (saveRotate 2 [['b'], ['c']] ['a']).2,
      ∀ y ∈ (saveRotate 2 [['b'], ['c']] ['a']).1, x ≤ y) ∧
    (multiSave 2 [['a']]).2 = [] :=
  ⟨(save_rotates_checkpoints 2 [['b'], ['c']] ['a'] [['a']]).1,
   (save_rotates_checkpoints 2 [['b'], ['c']] ['a'] [['a']]).2.1,
   (save_rotates_checkpoints 2 [['b'], ['c']] ['a'] [['a']]).2.2.1,
   (save_rotates_checkpoints 2 [['b'], ['c']] ['a'] [['a']]).2.2.2 (by decide)⟩

/-- The character of a decimal digit (code point `48 + d`). -/
def digitChar (d : Nat) : Char := Char.ofNat (48 + d)

/-- Decimal rendering helper: most-significant digit first, with explicit
fuel so the definition is structurally recursive. -/
def decDigitsAux : Nat → Nat → List Char
  | 0, _ => []
  | fuel + 1, n => if n = 0 then [] else decDigitsAux fuel (n / 10) ++ [digitChar (n % 10)]

/-- The decimal representation of `n`, most significant digit first
(`"0"` for 0), as produced by Python's `str`/`format`. -/
def decDigits (n : Nat) : List Char :=
  if n = 0 then ['0'] else decDigitsAux n n

/-- Python's zero-padding `f'{n:09d}'` applied to an already rendered
number: pad on the left with `'0'` up to the requested width. -/
def zeroPad (w : Nat) (l : List Char) : List Char :=
  List.replicate (w - l.length) '0' ++ l

/-- The checkpoint filename `checkpoint_<train_step:09d>_<env_steps>.pth`
written by `_save`. -/
def checkpointName (train_step env_steps : Nat) : FileName :=
  ("checkpoint_".data) ++ zeroPad 9 (decDigits train_step) ++ ("_".data) ++
    decDigits env_steps ++ (".pth".data)

theorem decDigitsAux_zero (fuel : Nat) : decDigitsAux fuel 0 = [] := by
  cases fuel <;> rfl

theorem decDigitsAux_fuel_inv (fuel1 : Nat) : ∀ (fuel2 n : Nat), n ≤ fuel1 → n ≤ fuel2 →
    decDigitsAux fuel1 n = decDigitsAux fuel2 n := by
  induction fuel1 with
  | zero =>
    intro f2 n h1 _
    obtain rfl : n = 0 := by omega
    rw [decDigitsAux_zero, decDigitsAux_zero]
  | succ f ih =>
    intro f2 n h1 h2
    by_cases hn : n = 0
    · subst hn
      rw [decDigitsAux_zero, decDigitsAux_zero]
    · cases f2 with
      | zero => omega
      | succ g =>
        simp only [decDigitsAux, if_neg hn]
        have hd : n / 10 < n := Nat.div_lt_self (by omega) (by norm_num)
        rw [ih g (n / 10) (by omega) (by omega)]

theorem decDigits_step (n : Nat) (h : 10 ≤ n) :
    decDigits n = decDigits (n / 10) ++ [digitChar (n % 10)] := by
  have hn : n ≠ 0 := by omega
  have hq : n / 10 ≠ 0 := by
    have : 1 ≤ n / 10 := (Nat.one_le_div_iff (by norm_num)).mpr h
    omega
  unfold decDigits
  rw [if_neg hn, if_neg hq]
  cases n with
  | zero => omega
  | succ m =>
    simp only [decDigitsAux, if_neg hn]
    have hd : (m + 1) / 10 < m + 1 := Nat.div_lt_self (by omega) (by norm_num)
    rw [decDigitsAux_fuel_inv m ((m + 1) / 10) ((m + 1) / 10) (by omega) (Nat.le_refl _)]

theorem decDigits_single (n : Nat) (h1 : 1 ≤ n) (h2 : n < 10) :
    decDigits n = [digitChar n] := by
  unfold decDigits
  rw [if_neg (by omega)]
  cases n with
  | zero => omega
  | succ m =>
    simp only [decDigitsAux, if_neg (by omega : ¬ m + 1 = 0)]
    rw [show (m + 1) / 10 = 0 from by omega, show (m + 1) % 10 = m + 1 from by omega,
      decDigitsAux_zero]
    simp

/-- The fixed-width rendering: exactly `w` decimal digits of `n` (the last
`w` digits, with leading zeros). -/
def padDigits : Nat → Nat → List Char
  | 0, _ => []
  | w + 1, n => padDigits w (n / 10) ++ [digitChar (n % 10)]

theorem padDigits_length (w : Nat) : ∀ n, (padDigits w n).length = w := by
  induction w with
  | zero => intro n; rfl
  | succ v ih => intro n; simp [padDigits, ih]

theorem padDigits_zero_eq (w : Nat) : padDigits w 0 = List.replicate w '0' := by
  induction w with
  | zero => rfl
  | succ v ih =>
    show padDigits v (0 / 10) ++ [digitChar (0 % 10)] = _
    rw [show (0 : Nat) / 10 = 0 from rfl, show (0 : Nat) % 10 = 0 from rfl, ih,
      List.replicate_succ']
    congr 1

theorem zeroPad_append_singleton (w : Nat) (l : List Char) (c : Char) :
    zeroPad (w + 1) (l ++ [c]) = zeroPad w l ++ [c] := by
  unfold zeroPad
  rw [List.length_append]
  simp only [List.length_cons, List.length_nil]
  rw [show w + 1 - (l.length + (0 + 1)) = w - l.length from by omega, List.append_assoc]

theorem zeroPad_decDigits (w n : Nat) (hw : 0 < w) (hn : n < 10 ^ w) :
    zeroPad w (decDigits n) = padDigits w n := by
  obtain ⟨v, rfl⟩ : ∃ v, w = v + 1 := ⟨w - 1, by omega⟩
  clear hw
  induction v generalizing n with
  | zero =>
    by_cases h0 : n = 0
    · subst h0; decide
    · rw [decDigits_single n (by omega) (by simpa using hn)]
      show List.replicate (1 - 1) '0' ++ [digitChar n] =
        padDigits 0 (n / 10) ++ [digitChar (n % 10)]
      rw [show n % 10 = n from by omega]
      simp [padDigits]
  | succ v ih =>
    by_cases h10 : n < 10
    · by_cases h0 : n = 0
      · subst h0
        show List.replicate (v + 2 - 1) '0' ++ ['0'] = _
        rw [padDigits_zero_eq, show v + 2 - 1 = v + 1 from by omega, ← List.replicate_succ']
      · rw [decDigits_single n (by omega) h10]
        show List.replicate (v + 2 - 1) '0' ++ [digitChar n] =
          padDigits (v + 1) (n / 10) ++ [digitChar (n % 10)]
        rw [show n / 10 = 0 from by omega, show n % 10 = n from by omega, padDigits_zero_eq,
          show v + 2 - 1 = v + 1 from by omega]
    · rw [decDigits_step n (by omega), zeroPad_append_singleton,
        ih (n / 10) ((Nat.div_lt_iff_lt_mul (by norm_num)).mpr (by rw [← pow_succ]; exact hn))]
      rfl

theorem digitChar_lt (d1 d2 : Nat) (h1 : d1 < d2) (h2 : d2 ≤ 9) :
    digitChar d1 < digitChar d2 := by
  have hd1 : d1 ≤ 8 := by omega
  interval_cases d1 <;> interval_cases d2 <;> decide

theorem padDigits_lt (w : Nat) : ∀ (a b : Nat) (u v : List Char), a < b → b < 10 ^ w →
    List.Lex (· < ·) (padDigits w a ++ u) (padDigits w b ++ v) := by
  induction w with
  | zero =>
    intro a b u v hab hb
    simp only [pow_zero] at hb
    omega
  | succ w ih =>
    intro a b u v hab hb
    have hq : a / 10 ≤ b / 10 := Nat.div_le_div_right (Nat.le_of_lt hab)
    rcases Nat.lt_or_eq_of_le hq with hlt | heq
    · simp only [padDigits, List.append_assoc]
      exact ih (a / 10) (b / 10) _ _ hlt
        ((Nat.div_lt_iff_lt_mul (by norm_num)).mpr (by rw [← pow_succ]; exact hb))
    · have hm : a % 10 < b % 10 := by omega
      simp only [padDigits, List.append_assoc, heq]
      apply List.Lex.append_left
      exact List.Lex.rel (digitChar_lt _ _ hm (by omega))

theorem checkpointName_lt (ts1 es1 ts2 es2 : Nat) (h : ts1 < ts2) (h9 : ts2 < 10 ^ 9) :
    List.Lex (· < ·) (checkpointName ts1 es1) (checkpointName ts2 es2) := by
  unfold checkpointName
  rw [zeroPad_decDigits 9 ts1 (by norm_num) (by omega), zeroPad_decDigits 9 ts2 (by norm_num) h9]
  simp only [List.append_assoc]
  apply List.Lex.append_left
  exact padDigits_lt 9 ts1 ts2 _ _ h h9

theorem sorted_le_getLast? (l : List FileName) (hs : l.Sorted (· ≤ ·)) (x : FileName)
    (hx : x ∈ l) (y : FileName) (hy : l.getLast? = some y) : x ≤ y := by
  induction l with
  | nil => simp at hx
  | cons a t ih =>
    cases t with
    | nil =>
      have hxa : x = a := by simpa using hx
      have hya : a = y := by simpa using hy
      rw [hxa, ← hya]
    | cons b t2 =>
      rw [List.getLast?_cons_cons] at hy
      have hymem : y ∈ b :: t2 := List.mem_of_getLast?_eq_some hy
      rcases List.mem_cons.mp hx with rfl | hx2
      · exact List.rel_of_sorted_cons hs y hymem
      · exact ih hs.of_cons hx2 hy

/-- C6 (amended): `get_checkpoints` enumerates the checkpoint files in
lexicographic order and `load_checkpoint` selects the last element; for
files named `checkpoint_<train_step:09d>_<env_steps>.pth` this selects a
file with the numerically greatest `train_step` PROVIDED every
`train_step` is below `10^9` (so that the 9-digit zero-padding makes
lexicographic order agree with numeric order). -/
theorem load_checkpoint_selects_latest (entries : List (Nat × Nat)) (hne : entries ≠ [])
    (h9 : ∀ e ∈ entries, e.1 < 10 ^ 9) :
    (get_checkpoints (entries.map fun e => checkpointName e.1 e.2)).Sorted (· ≤ ·) ∧
    (get_checkpoints (entries.map fun e => checkpointName e.1 e.2)).Perm
      (entries.map fun e => checkpointName e.1 e.2) ∧
    ∃ e ∈ entries,
      loadCheckpointSelect (get_checkpoints (entries.map fun e => checkpointName e.1 e.2)) =
        some (checkpointName e.1 e.2) ∧
      ∀ e2 ∈ entries, e2.1 ≤ e.1 := by
  have hfne : entries.map (fun e => checkpointName e.1 e.2) ≠ [] := by
    intro h
    exact hne (List.map_eq_nil_iff.mp h)
  have hgcne : get_checkpoints (entries.map fun e => checkpointName e.1 e.2) ≠ [] := by
    intro h
    have hl := get_checkpoints_length (entries.map fun e => checkpointName e.1 e.2)
    rw [h] at hl
    exact hfne (List.length_eq_zero.mp hl.symm)
  refine ⟨get_checkpoints_sorted _, get_checkpoints_perm _, ?_⟩
  obtain ⟨y, hy⟩ : ∃ y,
      (get_checkpoints (entries.map fun e => checkpointName e.1 e.2)).getLast? = some y := by
    cases hgl : (get_checkpoints (entries.map fun e => checkpointName e.1 e.2)).getLast? with
    | none => exact absurd (List.getLast?_eq_none_iff.mp hgl) hgcne
    | some y => exact ⟨y, rfl⟩
  have hymem : y ∈ entries.map fun e => checkpointName e.1 e.2 :=
    (get_checkpoints_perm _).subset (List.mem_of_getLast?_eq_some hy)
  obtain ⟨e, he, hename⟩ := List.mem_map.mp hymem
  refine ⟨e, he, ?_, ?_⟩
  · unfold loadCheckpointSelect
    rw [if_neg (by
      have hl := get_checkpoints_length (entries.map fun e => checkpointName e.1 e.2)
      have : 0 < (entries.map fun e => checkpointName e.1 e.2).length := by
        cases hml : entries.map fun e => checkpointName e.1 e.2 with
        | nil => exact absurd hml hfne
        | cons a t => simp
      omega)]
    rw [hy, hename]
  · intro e2 he2
    by_contra hgt
    push_neg at hgt
    have hlex : List.Lex (· < ·) (checkpointName e.1 e.2) (checkpointName e2.1 e2.2) :=
      checkpointName_lt e.1 e.2 e2.1 e2.2 hgt (h9 e2 he2)
    have hle : checkpointName e2.1 e2.2 ≤ y :=
      sorted_le_getLast? _ (get_checkpoints_sorted _) _
        ((get_checkpoints_perm _).mem_iff.mpr (List.mem_map_of_mem _ he2)) y hy
    have hlt : (checkpointName e.1 e.2 : FileName) < checkpointName e2.1 e2.2 := hlex
    rw [hename] at hlt
    exact absurd hle (not_le_of_lt hlt)

/-- C6 (counterexample): the padding only guarantees numeric order below
`10^9`.  With checkpoints at `train_step = 10^9` (ten digits) and
`train_step = 999999999` (nine digits), the name of the numerically larger
checkpoint starts with `'1' < '9'`, so `load_checkpoint` selects the file
with the numerically SMALLER `train_step`. -/
theorem load_checkpoint_lex_counterexample :
    loadCheckpointSelect (get_checkpoints
        [checkpointName 1000000000 5, checkpointName 999999999 8]) =
      some (checkpointName 999999999 8) ∧
    (999999999 : Nat) < 1000000000 := by
  exact ⟨by decide, by decide⟩

/-- C6 witness: with train steps 3 and 5 (both below `10^9`), the selected
checkpoint is the one with the greatest train step. -/
theorem load_checkpoint_selects_latest_witness :
    ∃ e ∈ [((3 : Nat), (7 : Nat)), (5, 2)],
      loadCheckpointSelect (get_checkpoints
          ([((3 : Nat), (7 : Nat)), (5, 2)].map fun e => checkpointName e.1 e.2)) =
        some (checkpointName e.1 e.2) ∧
      ∀ e2 ∈ [((3 : Nat), (7 : Nat)), (5, 2)], e2.1 ≤ e.1 :=
  (load_checkpoint_selects_latest [(3, 7), (5, 2)] (by decide) (by decide)).2.2

/-- State of the V-trace backward loop of `_train`: the `vs` and `adv`
output tensors (indexed by batch position) and the `next_values`/`next_vs`
vectors (indexed by trajectory). -/
structure VtraceState where
  vs : Nat → Rat
  adv : Nat → Rat
  nextValues : Nat → Rat
  nextVs : Nat → Rat

/-- One iteration of the V-trace backward loop at timestep `i` (the loop
body for `timestep = np.arange(i, batch_size, recurrence)`): position `p`
belongs to timestep `i` of trajectory `p / R` iff `p % R = i` and
`p / R < T` where `R` is `recurrence` and `T` is `num_trajectories`.
`delta_s = rho * (r + (1-d)*gamma*next_values - v)`,
`adv = rho * (r + (1-d)*gamma*next_vs - v)`,
`next_vs' = v + delta_s + (1-d)*gamma*c*(next_vs - next_values)`,
`vs = next_vs'`, `next_values' = v`. -/
def vtraceStep (gamma : Rat) (R T : Nat)
    (values rewards dones vtrace_rho vtrace_c : Nat → Rat)
    (i : Nat) (st : VtraceState) : VtraceState :=
  let newNextVs : Nat → Rat := fun k =>
    values (i + k * R) +
      vtrace_rho (i + k * R) * (rewards (i + k * R) +
        (1 - dones (i + k * R)) * gamma * st.nextValues k - values (i + k * R)) +
      (1 - dones (i + k * R)) * gamma * vtrace_c (i + k * R) *
        (st.nextVs k - st.nextValues k)
  { vs := fun p => if p % R = i ∧ p / R < T then newNextVs (p / R) else st.vs p,
    adv := fun p => if p % R = i ∧ p / R < T then
        vtrace_rho p * (rewards p + (1 - dones p) * gamma * st.nextVs (p / R) - values p)
      else st.adv p,
    nextValues := fun k => if k < T then values (i + k * R) else st.nextValues k,
    nextVs := fun k => if k < T then newNextVs k else st.nextVs k }

/-- The loop `for i in reversed(range(R))`: `vtraceIter … n st` runs the
body for `i = n-1, …, 0`. -/
def vtraceIter (gamma : Rat) (R T : Nat)
    (values rewards dones vtrace_rho vtrace_c : Nat → Rat) :
    Nat → VtraceState → VtraceState
  | 0, st => st
  | i + 1, st => vtraceIter gamma R T values rewards dones vtrace_rho vtrace_c i
      (vtraceStep gamma R T values rewards dones vtrace_rho vtrace_c i st)

/-- The initial state of the loop: `vs`/`adv` are zero tensors and
`next_values = next_vs = (values[last] - rewards[last]) / gamma` with
`last = np.arange(R-1, batch_size, R)`. -/
def vtraceInit (gamma : Rat) (R : Nat) (values rewards : Nat → Rat) : VtraceState :=
  { vs := fun _ => 0, adv := fun _ => 0,
    nextValues := fun k => (values ((R - 1) + k * R) - rewards ((R - 1) + k * R)) / gamma,
    nextVs := fun k => (values ((R - 1) + k * R) - rewards ((R - 1) + k * R)) / gamma }

/-- The whole V-trace target computation of `_train`:
`vtrace_rho = min(rho_hat, ratios)` and `vtrace_c = min(c_hat, ratios)`
with `rho_hat = c_hat = 1`, then the backward loop over all `R`
timesteps. -/
def vtraceRun (gamma : Rat) (R T : Nat) (values rewards dones ratios : Nat → Rat) :
    VtraceState :=
  vtraceIter gamma R T values rewards dones
    (fun p => min 1 (ratios p)) (fun p => min 1 (ratios p)) R
    (vtraceInit gamma R values rewards)

/-- `adv.mean()` over the `T * R` batch positions. -/
def advMean (T R : Nat) (adv : Nat → Rat) : Rat :=
  ((List.range (T * R)).map adv).sum / (T * R)

theorem vtraceIter_frame (gamma : Rat) (R T : Nat)
    (values rewards dones vtrace_rho vtrace_c : Nat → Rat) :
    ∀ (n : Nat) (st : VtraceState) (p : Nat), n ≤ p % R →
      (vtraceIter gamma R T values rewards dones vtrace_rho vtrace_c n st).vs p = st.vs p ∧
      (vtraceIter gamma R T values rewards dones vtrace_rho vtrace_c n st).adv p =
        st.adv p := by
  intro n
  induction n with
  | zero => intro st p _; exact ⟨rfl, rfl⟩
  | succ m ih =>
    intro st p hp
    have h1 := ih (vtraceStep gamma R T values rewards dones vtrace_rho vtrace_c m st) p
      (by omega)
    simp only [vtraceIter]
    refine ⟨?_, ?_⟩
    · rw [h1.1]
      simp only [vtraceStep]
      rw [if_neg (fun h => absurd h.1 (by omega))]
    · rw [h1.2]
      simp only [vtraceStep]
      rw [if_neg (fun h => absurd h.1 (by omega))]

theorem vtraceIter_zero_ratio (gamma : Rat) (R T : Nat)
    (values rewards dones vtrace_rho vtrace_c : Nat → Rat)
    (hrho : ∀ p, vtrace_rho p = 0) (hc : ∀ p, vtrace_c p = 0) :
    ∀ (n : Nat) (st : VtraceState) (p : Nat), p % R < n → p / R < T →
      (vtraceIter gamma R T values rewards dones vtrace_rho vtrace_c n st).vs p = values p ∧
      (vtraceIter gamma R T values rewards dones vtrace_rho vtrace_c n st).adv p = 0 := by
  intro n
  induction n with
  | zero => intro st p h _; omega
  | succ m ih =>
    intro st p hp hpT
    by_cases hcase : p % R < m
    · simp only [vtraceIter]
      exact ih _ p hcase hpT
    · have hpm : p % R = m := by omega
      have hframe := vtraceIter_frame gamma R T values rewards dones vtrace_rho vtrace_c m
        (vtraceStep gamma R T values rewards dones vtrace_rho vtrace_c m st) p (by omega)
      have hidx : m + p / R * R = p := by
        have hdm := Nat.div_add_mod p R
        rw [hpm] at hdm
        rw [Nat.mul_comm, Nat.add_comm]
        exact hdm
      simp only [vtraceIter]
      constructor
      · rw [hframe.1]
        simp only [vtraceStep]
        rw [if_pos ⟨hpm, hpT⟩, hrho, hc, hidx]
        ring
      · rw [hframe.2]
        simp only [vtraceStep]
        rw [if_pos ⟨hpm, hpT⟩, hrho]
        ring

/-- C8: when every importance ratio is zero (so `vtrace_rho = vtrace_c =
min(1, 0) = 0` everywhere), the V-trace backward loop of `_train` returns
`vs[p] = values[p]` and `adv[p] = 0` at every batch position `p`, the
advantage mean is 0, and the normalized advantage
`(adv - mean) / max(1e-2, std)` is 0 everywhere for every value of the
standard deviation. -/
theorem vtrace_zero_ratio_identity (gamma : Rat) (R T : Nat)
    (values rewards dones ratios : Nat → Rat)
    (hratio : ∀ p, ratios p = 0) (hR : 0 < R) (p : Nat) (hp : p / R < T) :
    (vtraceRun gamma R T values rewards dones ratios).vs p = values p ∧
    (vtraceRun gamma R T values rewards dones ratios).adv p = 0 ∧
    advMean T R (vtraceRun gamma R T values rewards dones ratios).adv = 0 ∧
    ∀ std : Rat,
      ((vtraceRun gamma R T values rewards dones ratios).adv p -
        advMean T R (vtraceRun gamma R T values rewards dones ratios).adv) /
          max (1 / 100) std = 0 := by
  have hrho : ∀ q, min (1 : Rat) (ratios q) = 0 := by
    intro q
    rw [hratio q]
    simp
  have hmain : ∀ q, q / R < T →
      (vtraceRun gamma R T values rewards dones ratios).vs q = values q ∧
      (vtraceRun gamma R T values rewards dones ratios).adv q = 0 := by
    intro q hq
    exact vtraceIter_zero_ratio gamma R T values rewards dones _ _ hrho hrho R
      (vtraceInit gamma R values rewards) q (Nat.mod_lt q hR) hq
  have hmean : advMean T R (vtraceRun gamma R T values rewards dones ratios).adv = 0 := by
    unfold advMean
    rw [List.sum_eq_zero, zero_div]
    intro x hx
    obtain ⟨q, hq, rfl⟩ := List.mem_map.mp hx
    have hqR : q / R < T := by
      rw [List.mem_range] at hq
      exact Nat.div_lt_of_lt_mul (by rw [Nat.mul_comm]; exact hq)
    exact (hmain q hqR).2
  refine ⟨(hmain p hp).1, (hmain p hp).2, hmean, ?_⟩
  intro std
  rw [(hmain p hp).2, hmean, sub_zero, zero_div]

/-- C8 witness: a two-step single-trajectory batch with constant values 3,
rewards 1, no episode boundaries and all ratios zero: `vs` equals the
value at every position, the advantage is 0 and stays 0 after
normalization (with `std = 5`). -/
theorem vtrace_zero_ratio_identity_witness :
    (vtraceRun 1 2 1 (fun _ => 3) (fun _ => 1) (fun _ => 0) (fun _ => 0)).vs 1 = 3 ∧
    (vtraceRun 1 2 1 (fun _ => 3) (fun _ => 1) (fun _ => 0) (fun _ => 0)).adv 1 = 0 ∧
    advMean 1 2 (vtraceRun 1 2 1 (fun _ => 3) (fun _ => 1) (fun _ => 0) (fun _ => 0)).adv
      = 0 ∧
    ((vtraceRun 1 2 1 (fun _ => 3) (fun _ => 1) (fun _ => 0) (fun _ => 0)).adv 1 -
      advMean 1 2 (vtraceRun 1 2 1 (fun _ => 3) (fun _ => 1) (fun _ => 0) (fun _ => 0)).adv) /
        max (1 / 100) 5 = 0 :=
  ⟨(vtrace_zero_ratio_identity 1 2 1 (fun _ => 3) (fun _ => 1) (fun _ => 0) (fun _ => 0)
      (fun _ => rfl) (by norm_num) 1 (by norm_num)).1,
   (vtrace_zero_ratio_identity 1 2 1 (fun _ => 3) (fun _ => 1) (fun _ => 0) (fun _ => 0)
      (fun _ => rfl) (by norm_num) 1 (by norm_num)).2.1,
   (vtrace_zero_ratio_identity 1 2 1 (fun _ => 3) (fun _ => 1) (fun _ => 0) (fun _ => 0)
      (fun _ => rfl) (by norm_num) 1 (by norm_num)).2.2.1,
   (vtrace_zero_ratio_identity 1 2 1 (fun _ => 3) (fun _ => 1) (fun _ => 0) (fun _ => 0)
      (fun _ => rfl) (by norm_num) 1 (by norm_num)).2.2.2 5⟩

/-- The learner state tracked by the weight-broadcast model: the current
`train_step` and the policy-version tags of all broadcasts so far, in
order. -/
structure BroadcastState where
  train_step : Nat
  broadcasts : List Nat
deriving DecidableEq, Repr

/-- The training-thread events that touch `train_step` or publish weights:
an optimizer step (`_after_optimizer_step`, the only place `train_step`
changes), a cross-policy PBT load (`_update_pbt` loading another policy's
checkpoint, which replaces parameters and `kl_coeff` but, per
`_load_state` with `load_progress=False`, not `train_step`), and a weight
broadcast (`_broadcast_weights`, capturing
`policy_version = self.train_step`). -/
inductive LearnerEvent
  | optimizerStep
  | pbtCrossLoad
  | broadcast
deriving DecidableEq, Repr

def applyEvent (s : BroadcastState) : LearnerEvent → BroadcastState
  | .optimizerStep => { s with train_step := s.train_step + 1 }
  | .pbtCrossLoad => s
  | .broadcast => { s with broadcasts := s.broadcasts ++ [s.train_step] }

def runEvents (s : BroadcastState) (es : List LearnerEvent) : BroadcastState :=
  es.foldl applyEvent s

/-- One call of `_process_training_data`: `_update_pbt` (possibly a
cross-policy load), then `_train` performing `kSgd` optimizer steps
(`ppo_epochs * len(minibatches)`, each ending in
`_after_optimizer_step`), then one `_broadcast_weights`. -/
def trainingIteration (pbt : Bool) (kSgd : Nat) : List LearnerEvent :=
  (if pbt then [LearnerEvent.pbtCrossLoad] else []) ++
    List.replicate kSgd LearnerEvent.optimizerStep ++ [LearnerEvent.broadcast]

/-- A full run of the training thread: the initial broadcast at the end of
`initialize` (after an optional checkpoint restore fixing `t0`), then one
`trainingIteration` per processed experience batch. -/
def learnerRun (t0 : Nat) (batches : List (Bool × Nat)) : BroadcastState :=
  runEvents { train_step := t0, broadcasts := [] }
    (LearnerEvent.broadcast :: (batches.map fun b => trainingIteration b.1 b.2).flatten)

theorem runEvents_append (s : BroadcastState) (l1 l2 : List LearnerEvent) :
    runEvents s (l1 ++ l2) = runEvents (runEvents s l1) l2 := by
  unfold runEvents
  rw [List.foldl_append]

theorem runEvents_replicate_opt (k : Nat) : ∀ s : BroadcastState,
    runEvents s (List.replicate k LearnerEvent.optimizerStep) =
      { s with train_step := s.train_step + k } := by
  induction k with
  | zero => intro s; cases s; rfl
  | succ m ih =>
    intro s
    rw [List.replicate_succ]
    show runEvents (applyEvent s LearnerEvent.optimizerStep)
      (List.replicate m LearnerEvent.optimizerStep) = _
    rw [ih]
    simp only [applyEvent]
    congr 1
    omega

theorem trainingIteration_effect (s : BroadcastState) (pbt : Bool) (k : Nat) :
    runEvents s (trainingIteration pbt k) =
      { train_step := s.train_step + k, broadcasts := s.broadcasts ++ [s.train_step + k] } := by
  unfold trainingIteration
  rw [runEvents_append, runEvents_append]
  have h1 : runEvents s (if pbt then [LearnerEvent.pbtCrossLoad] else []) = s := by
    cases pbt <;> rfl
  rw [h1, runEvents_replicate_opt]
  rfl

theorem runEvents_invariant (batches : List (Bool × Nat)) :
    ∀ s : BroadcastState, (∀ b ∈ batches, 1 ≤ b.2) →
    List.Chain' (· < ·) s.broadcasts → (∀ x ∈ s.broadcasts, x ≤ s.train_step) →
    List.Chain' (· < ·)
      (runEvents s (batches.map fun b => trainingIteration b.1 b.2).flatten).broadcasts ∧
    (∀ x ∈ (runEvents s (batches.map fun b => trainingIteration b.1 b.2).flatten).broadcasts,
      x ≤ (runEvents s (batches.map fun b => trainingIteration b.1 b.2).flatten).train_step)
    := by
  induction batches with
  | nil => intro s _ h1 h2; exact ⟨h1, h2⟩
  | cons b bs ih =>
    intro s hk h1 h2
    rw [List.map_cons, List.flatten_cons, runEvents_append, trainingIteration_effect]
    have hb1 : 1 ≤ b.2 := hk b (List.mem_cons_self b bs)
    refine ih _ (fun x hx => hk x (List.mem_cons_of_mem b hx)) ?_ ?_
    · show List.Chain' (· < ·) (s.broadcasts ++ [s.train_step + b.2])
      rw [List.chain'_append]
      refine ⟨h1, List.chain'_singleton _, ?_⟩
      intro x hx y hy
      simp only [List.head?_cons, Option.mem_def, Option.some.injEq] at hy
      subst hy
      have hxs : x ∈ s.broadcasts := by
        have := List.mem_of_getLast?_eq_some hx
        exact this
      have := h2 x hxs
      omega
    · show ∀ x ∈ s.broadcasts ++ [s.train_step + b.2], x ≤ s.train_step + b.2
      intro x hx
      rcases List.mem_append.mp hx with hx2 | hx2
      · have := h2 x hx2
        omega
      · simp only [List.mem_singleton] at hx2
        omega

/-- C9: along any run of the training thread (initial broadcast, then one
training iteration per experience batch, each performing at least one
optimizer step), the policy-version tags of successive weight broadcasts
are strictly increasing; `train_step` never decreases under any event
sequence; only `_after_optimizer_step` changes `train_step`; and
`_get_minibatches` always yields at least one minibatch (so with
`ppo_epochs ≥ 1` every processed batch indeed performs at least one
optimizer step). -/
theorem broadcast_versions_strictly_increasing (t0 : Nat) (batches : List (Bool × Nat))
    (hk : ∀ b ∈ batches, 1 ≤ b.2) :
    List.Chain' (· < ·) (learnerRun t0 batches).broadcasts ∧
    (∀ (s : BroadcastState) (es : List LearnerEvent),
      s.train_step ≤ (runEvents s es).train_step) ∧
    (∀ (s : BroadcastState) (e : LearnerEvent),
      e ≠ LearnerEvent.optimizerStep → (applyEvent s e).train_step = s.train_step) ∧
    (∀ (cfg : Config) (size : Nat) (bp : List Nat), 0 < size → cfg.batch_size ∣ size →
      1 ≤ (getMinibatches cfg size bp).length) := by
  refine ⟨?_, ?_, ?_, ?_⟩
  · unfold learnerRun
    show List.Chain' (· < ·) (runEvents
      (applyEvent { train_step := t0, broadcasts := [] } LearnerEvent.broadcast)
      (batches.map fun b => trainingIteration b.1 b.2).flatten).broadcasts
    exact (runEvents_invariant batches _ hk (List.chain'_singleton t0)
      (by intro x hx; simp only [applyEvent, List.nil_append, List.mem_singleton] at hx ⊢;
          omega)).1
  · intro s es
    induction es generalizing s with
    | nil => exact Nat.le_refl _
    | cons e t ihe =>
      refine Nat.le_trans ?_ (ihe (applyEvent s e))
      cases e <;> simp [applyEvent]
  · intro s e he
    cases e with
    | optimizerStep => exact absurd rfl he
    | pbtCrossLoad => rfl
    | broadcast => rfl
  · intro cfg size bp hsize hdvd
    unfold getMinibatches
    split
    · simp
    · rw [List.length_map, splitChunks_length]
      obtain ⟨k, hkk⟩ := hdvd
      have hbs : 0 < cfg.batch_size := by
        rcases Nat.eq_zero_or_pos cfg.batch_size with h0 | h0
        · rw [h0] at hkk; omega
        · exact h0
      have : size / cfg.batch_size = k := by
        rw [hkk, Nat.mul_div_cancel_left k hbs]
      rw [this]
      rcases Nat.eq_zero_or_pos k with h0 | h0
      · rw [h0] at hkk; omega
      · exact h0

/-- C9 witness: a run from `train_step = 4` over two experience batches
(the second with a PBT cross-load), with 2 and 1 optimizer steps. -/
theorem broadcast_versions_strictly_increasing_witness :
    List.Chain' (· < ·) (learnerRun 4 [(false, 2), (true, 1)]).broadcasts ∧
    (applyEvent { train_step := 9, broadcasts := [] }
      LearnerEvent.pbtCrossLoad).train_step = 9 :=
  ⟨(broadcast_versions_strictly_increasing 4 [(false, 2), (true, 1)] (by decide)).1,
   (broadcast_versions_strictly_increasing 4 [(false, 2), (true, 1)] (by decide)).2.2.1
     { train_step := 9, broadcasts := [] } LearnerEvent.pbtCrossLoad (by decide)⟩
